import Mathlib

/-!
Verification of the bipkey deterministic key-derivation pipeline
(`pkg/keys` of github.com/goodieshq/bipkey) against its specification.

Byte sources (`io.Reader` values fed to the samplers) are modelled as
`List Nat` of byte values; a read of `n` bytes takes the first `n`
elements and leaves the rest, and fails (`none`) when fewer than `n`
bytes remain, mirroring `io.ReadFull`.  Go strings are modelled as
`List Char`.  External library functions (BIP-39 seed derivation, HKDF,
the ChaCha20 keystream, point multiplication, PKCS#8 marshalling) are
modelled as opaque parameters collected in an `Externals` structure, so
every theorem quantifies over their behaviour.
-/

set_option maxRecDepth 8000

/-- Big-endian interpretation of a byte buffer, as computed by Go's
`new(big.Int).SetBytes(buf)`. -/
def bytesBE (l : List Nat) : Nat := l.foldl (fun acc b => acc * 256 + b) 0

/-- `buf[byteLen-1] |= 0x01` of `derivePrime`: set the low bit of the final byte. -/
def orLastOne : List Nat → List Nat
  | [] => []
  | [b] => [b ||| 1]
  | b :: c :: rest => b :: orLastOne (c :: rest)

/-- The two in-place bit forcings of `derivePrime`:
`buf[0] |= 0x80` (full target bit length) and `buf[byteLen-1] |= 0x01` (odd). -/
def forceBits (buf : List Nat) : List Nat :=
  orLastOne (buf.modifyHead (fun b => b ||| 128))

/-- `PRIMALITY_TESTS = 256` from `keygen_rsa.go`. -/
def PRIMALITY_TESTS : Nat := 256

/-- Modelled from the spec: Go `math/big`'s `(*Int).ProbablyPrime(n)`
(Miller-Rabin with `n` rounds plus a Baillie-PSW Lucas test) is external
library code; it is idealised here as an exact primality test, which both
the code and the spec invoke with the same round count.  The round count
argument is kept so call sites mirror the source. -/
def probablyPrime (_rounds : Nat) (k : Nat) : Bool :=
  decide (2 ≤ k) && (List.range k).all (fun d => d ≤ 1 || k % d != 0)

theorem probablyPrime_iff (rounds k : Nat) :
    probablyPrime rounds k = true ↔ Nat.Prime k := by
  rw [Nat.prime_def_lt, probablyPrime]
  simp only [Bool.and_eq_true, List.all_eq_true, List.mem_range, decide_eq_true_eq,
    Bool.or_eq_true, bne_iff_ne, ne_eq]
  constructor
  · rintro ⟨h2, hall⟩
    refine ⟨h2, fun m hm hdvd => ?_⟩
    rcases hall m hm with h | h
    · have hm0 : m ≠ 0 := by
        rintro rfl
        exact absurd (Nat.eq_zero_of_zero_dvd hdvd) (by omega)
      omega
    · exact absurd (Nat.mod_eq_zero_of_dvd hdvd) h
  · rintro ⟨h2, hall⟩
    refine ⟨h2, fun d hd => ?_⟩
    by_cases hd1 : d ≤ 1
    · exact Or.inl hd1
    · right
      intro hmod
      have := hall d hd (Nat.dvd_of_mod_eq_zero hmod)
      omega

theorem orLastOne_eq (l : List Nat) (h : l ≠ []) :
    orLastOne l = l.dropLast ++ [l.getLast h ||| 1] := by
  induction l with
  | nil => exact absurd rfl h
  | cons b t ih =>
    cases t with
    | nil => simp [orLastOne]
    | cons c r =>
      simp only [orLastOne, List.dropLast_cons₂, List.getLast_cons (by simp : c :: r ≠ [])]
      rw [ih (by simp)]
      simp

theorem foldlBE (l : List Nat) (acc : Nat) :
    l.foldl (fun a b => a * 256 + b) acc = acc * 256 ^ l.length + bytesBE l := by
  induction l generalizing acc with
  | nil => simp [bytesBE]
  | cons b t ih =>
    simp only [List.foldl_cons, List.length_cons, bytesBE, Nat.zero_mul, Nat.zero_add]
    rw [ih (acc * 256 + b), ih b]
    ring

theorem bytesBE_append (l₁ l₂ : List Nat) :
    bytesBE (l₁ ++ l₂) = bytesBE l₁ * 256 ^ l₂.length + bytesBE l₂ := by
  rw [bytesBE, List.foldl_append, foldlBE]
  rfl

theorem lor_one_mod_two (b : Nat) : (b ||| 1) % 2 = 1 := by
  have h := Nat.testBit_lor b 1 0
  have h1 : (1 : Nat).testBit 0 = true := by decide
  rw [h1, Bool.or_true, Nat.testBit_zero] at h
  exact of_decide_eq_true h

/-- The forced buffer encodes an odd integer. -/
theorem forceBits_odd (buf : List Nat) (h : buf ≠ []) :
    bytesBE (forceBits buf) % 2 = 1 := by
  have hmh : buf.modifyHead (fun b => b ||| 128) ≠ [] := by
    cases buf with
    | nil => exact absurd rfl h
    | cons b t => simp
  rw [forceBits, orLastOne_eq _ hmh, bytesBE_append]
  simp only [List.length_singleton, pow_one]
  have hx : bytesBE [(List.modifyHead (fun b => b ||| 128) buf).getLast hmh ||| 1] % 2 = 1 := by
    simp only [bytesBE, List.foldl_cons, List.foldl_nil, Nat.zero_mul, Nat.zero_add]
    exact lor_one_mod_two _
  omega

theorem bytesBE_cons (x : Nat) (l : List Nat) :
    bytesBE (x :: l) = x * 256 ^ l.length + bytesBE l := by
  show List.foldl _ (0 * 256 + x) l = _
  rw [Nat.zero_mul, Nat.zero_add, foldlBE]

theorem orLastOne_length (l : List Nat) : (orLastOne l).length = l.length := by
  induction l with
  | nil => rfl
  | cons b t ih =>
    cases t with
    | nil => rfl
    | cons c r => simpa [orLastOne] using ih

theorem le_of_testBit_true {x i : Nat} (h : x.testBit i = true) : 2 ^ i ≤ x := by
  by_contra hlt
  push_neg at hlt
  rw [Nat.testBit_lt_two_pow hlt] at h
  exact absurd h (by simp)

theorem le_lor_128 (b : Nat) : 128 ≤ b ||| 128 := by
  have h := Nat.testBit_lor b 128 7
  have h128 : (128 : Nat).testBit 7 = true := by decide
  rw [h128, Bool.or_true] at h
  exact le_of_testBit_true h

/-- Since the leading byte is forced to have its high bit set, the candidate
has at least the target bit length. -/
theorem forceBits_lower_bound (b : Nat) (rest : List Nat) :
    128 * 256 ^ rest.length ≤ bytesBE (forceBits (b :: rest)) := by
  have hcons : (b :: rest).modifyHead (fun x => x ||| 128) = (b ||| 128) :: rest :=
    List.modifyHead_cons b rest _
  cases rest with
  | nil =>
    show 128 * 256 ^ 0 ≤ bytesBE (orLastOne [b ||| 128])
    simp only [orLastOne, bytesBE, List.foldl_cons, List.foldl_nil, pow_zero, Nat.mul_one,
      Nat.zero_mul, Nat.zero_add]
    have h := Nat.testBit_lor (b ||| 128) 1 7
    have h1 : (1 : Nat).testBit 7 = false := by decide
    have h2 : (b ||| 128).testBit 7 = true := by
      have hx := Nat.testBit_lor b 128 7
      have h128 : (128 : Nat).testBit 7 = true := by decide
      rw [h128, Bool.or_true] at hx
      exact hx
    rw [h1, h2] at h
    exact le_of_testBit_true h
  | cons c r =>
    show _ ≤ bytesBE (orLastOne ((b ||| 128) :: c :: r))
    have : orLastOne ((b ||| 128) :: c :: r) = (b ||| 128) :: orLastOne (c :: r) := rfl
    rw [this, bytesBE_cons, orLastOne_length]
    have hble := le_lor_128 b
    calc 128 * 256 ^ (c :: r).length
        ≤ (b ||| 128) * 256 ^ (c :: r).length :=
          Nat.mul_le_mul_right _ hble
      _ ≤ (b ||| 128) * 256 ^ (c :: r).length + bytesBE (orLastOne (c :: r)) :=
          Nat.le_add_right _ _

/-- An odd progression `k, k+2, k+4, …` always reaches a prime, hence a value
accepted by the (idealised) probable-prime test: this is the termination
argument for the unbounded search loop of `derivePrime`. -/
theorem exists_prime_in_progression (k : Nat) (hk : k % 2 = 1) :
    ∃ m, probablyPrime PRIMALITY_TESTS (k + 2 * m) = true := by
  obtain ⟨p, hkp, hp⟩ := Nat.exists_infinite_primes (max k 3)
  have h3 : 3 ≤ p := le_trans (le_max_right _ _) hkp
  have hple : k ≤ p := le_trans (le_max_left _ _) hkp
  have hpodd : p % 2 = 1 := by
    rcases Nat.Prime.eq_two_or_odd hp with h | h
    · omega
    · exact h
  refine ⟨(p - k) / 2, ?_⟩
  have hpk : k + 2 * ((p - k) / 2) = p := by omega
  rw [hpk, probablyPrime_iff]
  exact hp

/-- The unbounded `for { if k.ProbablyPrime(...) ... k.Add(k, two) }` loop of
`derivePrime`, expressed as a total function: the least accepted member of the
progression.  Totality is justified by `exists_prime_in_progression`. -/
def primeSearch (k : Nat) (hk : k % 2 = 1) : Nat :=
  k + 2 * Nat.find (exists_prime_in_progression k hk)

/-- `derivePrime` from `keygen_rsa.go`: read `byteLen = (bits+7)/8` bytes (a
single `io.ReadFull`, failing when the source is short), force the top bit of
the first byte and the low bit of the last, read the buffer big-endian and
search upward in steps of two for a probable prime.  The `byteLen = 0` case
(only reachable for `bits = 0`, where the Go code would panic on `buf[0]`)
also maps to `none`. -/
def derivePrime (src : List Nat) (bits : Nat) : Option (Nat × List Nat) :=
  if h : 1 ≤ (bits + 7) / 8 ∧ (bits + 7) / 8 ≤ src.length then
    some (primeSearch (bytesBE (forceBits (src.take ((bits + 7) / 8))))
        (forceBits_odd _ (by
          intro hnil
          have hl : (src.take ((bits + 7) / 8)).length = (bits + 7) / 8 := by
            rw [List.length_take]
            omega
          rw [hnil] at hl
          simp at hl
          omega)),
      src.drop ((bits + 7) / 8))
  else none

theorem primeSearch_first (k : Nat) (hk : k % 2 = 1) :
    ∃ m, primeSearch k hk = k + 2 * m ∧
      probablyPrime PRIMALITY_TESTS (k + 2 * m) = true ∧
      ∀ j < m, probablyPrime PRIMALITY_TESTS (k + 2 * j) = false := by
  refine ⟨Nat.find (exists_prime_in_progression k hk), rfl,
    Nat.find_spec (exists_prime_in_progression k hk), fun j hj => ?_⟩
  have := Nat.find_min (exists_prime_in_progression k hk) hj
  exact Bool.not_eq_true _ ▸ this

theorem derivePrime_some (src : List Nat) (bits : Nat)
    (h1 : 1 ≤ (bits + 7) / 8) (h2 : (bits + 7) / 8 ≤ src.length) :
    ∃ hk, derivePrime src bits =
      some (primeSearch (bytesBE (forceBits (src.take ((bits + 7) / 8)))) hk,
        src.drop ((bits + 7) / 8)) := by
  refine ⟨?_, ?_⟩
  · exact forceBits_odd _ (by
      intro hnil
      have hl : (src.take ((bits + 7) / 8)).length = (bits + 7) / 8 := by
        rw [List.length_take]
        omega
      rw [hnil] at hl
      simp at hl
      omega)
  · rw [derivePrime, dif_pos ⟨h1, h2⟩]

/-- C3: for every positive bit length and byte source holding at least
`(bits+7)/8` bytes, `derivePrime` consumes exactly `(bits+7)/8` bytes in a
single read (the leftover source is `src.drop ((bits+7)/8)`, and nothing more
is consumed no matter how many candidates are rejected), forces the high bit
of the first buffer byte and the low bit of the last (`forceBits`), reads the
buffer as a big-endian integer `k` (`bytesBE`), and returns the first member
of `k, k+2, k+4, …` accepted by the 256-round probable-prime test. -/
theorem derivePrime_spec (src : List Nat) (bits : Nat)
    (hbits : 0 < bits) (hlen : (bits + 7) / 8 ≤ src.length) :
    ∃ r, derivePrime src bits = some (r, src.drop ((bits + 7) / 8)) ∧
      ∃ m, r = bytesBE (forceBits (src.take ((bits + 7) / 8))) + 2 * m ∧
        probablyPrime PRIMALITY_TESTS r = true ∧
        ∀ j < m, probablyPrime PRIMALITY_TESTS
          (bytesBE (forceBits (src.take ((bits + 7) / 8))) + 2 * j) = false := by
  have h1 : 1 ≤ (bits + 7) / 8 := by omega
  obtain ⟨hk, heq⟩ := derivePrime_some src bits h1 hlen
  obtain ⟨m, hm, hacc, hmin⟩ := primeSearch_first _ hk
  exact ⟨_, heq, m, hm, hm ▸ hacc, hmin⟩

/-- C3 witness: on the one-byte source `[0]` with `bits = 8` the hypotheses
hold and the conclusion is delivered by `derivePrime_spec`. -/
theorem derivePrime_spec_witness :
    0 < 8 ∧ (8 + 7) / 8 ≤ [(0 : Nat)].length ∧
    (∃ r, derivePrime [(0 : Nat)] 8 = some (r, List.drop ((8 + 7) / 8) [(0 : Nat)]) ∧
      ∃ m, r = bytesBE (forceBits (List.take ((8 + 7) / 8) [(0 : Nat)])) + 2 * m ∧
        probablyPrime PRIMALITY_TESTS r = true ∧
        ∀ j < m, probablyPrime PRIMALITY_TESTS
          (bytesBE (forceBits (List.take ((8 + 7) / 8) [(0 : Nat)])) + 2 * j) = false) :=
  ⟨by decide, by decide, derivePrime_spec [0] 8 (by decide) (by decide)⟩

/-- C10: the prime search of `derivePrime` terminates on every input buffer:
the integer obtained after the bit forcings is odd, every candidate of the
`+2` search is odd, some candidate is accepted by the 256-round test, and so
`derivePrime` is a total function of the input bytes (it returns a value
whenever the single read succeeds). -/
theorem derivePrime_terminates (src : List Nat) (bits : Nat)
    (hbits : 0 < bits) (hlen : (bits + 7) / 8 ≤ src.length) :
    bytesBE (forceBits (src.take ((bits + 7) / 8))) % 2 = 1 ∧
    (∀ m, (bytesBE (forceBits (src.take ((bits + 7) / 8))) + 2 * m) % 2 = 1) ∧
    (∃ m, probablyPrime PRIMALITY_TESTS
      (bytesBE (forceBits (src.take ((bits + 7) / 8))) + 2 * m) = true) ∧
    ∃ v, derivePrime src bits = some v := by
  have h1 : 1 ≤ (bits + 7) / 8 := by omega
  obtain ⟨hk, heq⟩ := derivePrime_some src bits h1 hlen
  exact ⟨hk, fun m => by omega, exists_prime_in_progression _ hk, _, heq⟩

/-- C10 witness: concrete instance on the source `[2]` with `bits = 8`. -/
theorem derivePrime_terminates_witness :
    0 < 8 ∧ (8 + 7) / 8 ≤ [(2 : Nat)].length ∧
    (bytesBE (forceBits (List.take ((8 + 7) / 8) [(2 : Nat)])) % 2 = 1 ∧
    (∀ m, (bytesBE (forceBits (List.take ((8 + 7) / 8) [(2 : Nat)])) + 2 * m) % 2 = 1) ∧
    (∃ m, probablyPrime PRIMALITY_TESTS
      (bytesBE (forceBits (List.take ((8 + 7) / 8) [(2 : Nat)])) + 2 * m) = true) ∧
    ∃ v, derivePrime [(2 : Nat)] 8 = some v) :=
  ⟨by decide, by decide, derivePrime_terminates [2] 8 (by decide) (by decide)⟩

theorem not_prime_pow_1024_sub_one : ¬ Nat.Prime (2 ^ 1024 - 1) := by
  intro hp
  have hd : ((2 : Nat) ^ 512 - 1) ∣ (2 ^ 1024 - 1) := ⟨2 ^ 512 + 1, by norm_num⟩
  rcases hp.eq_one_or_self_of_dvd _ hd with h | h
  · norm_num at h
  · norm_num at h

theorem not_prime_pow_1024_add_one : ¬ Nat.Prime (2 ^ 1024 + 1) := by
  intro hp
  have hd : (45592577 : Nat) ∣ (2 ^ 1024 + 1) := by norm_num
  rcases hp.eq_one_or_self_of_dvd _ hd with h | h
  · norm_num at h
  · norm_num at h

/-- C4: counter-demonstration for the claim that `generateRSA`'s primes have
bit length exactly `S/2`.  On the byte source starting with 128 `0xff` bytes
(the buffer `derivePrime` reads for `p` at the supported size `S = 2048`,
`half = 1024`), the forced candidate is `2^1024 - 1`; it and `2^1024 + 1` are
both composite, so the `+2` search crosses `2^1024` and the prime returned —
which `generateRSA` would use as `p` — has bit length at least 1025, not
1024.  The code's own comment (`ensure the number is of the desired bit
length`) and the spec both promise bit length `S/2`. -/
theorem derivePrime_can_exceed_bit_length :
    ∃ r, derivePrime (List.replicate 128 255) 1024 = some (r, []) ∧
      2 ^ 1024 + 3 ≤ r ∧ 1024 < Nat.size r := by
  obtain ⟨hk, heq⟩ := derivePrime_some (List.replicate 128 255) 1024 (by norm_num) (by simp)
  have hdrop : (List.replicate 128 (255 : Nat)).drop ((1024 + 7) / 8) = [] := by simp
  rw [hdrop] at heq
  have hkval : bytesBE (forceBits ((List.replicate 128 (255 : Nat)).take ((1024 + 7) / 8)))
      = 2 ^ 1024 - 1 := by decide
  obtain ⟨m, hm, hacc, hmin⟩ := primeSearch_first _ hk
  have hpow : 1 ≤ (2 : Nat) ^ 1024 := Nat.one_le_two_pow
  have hm2 : 2 ≤ m := by
    rcases Nat.lt_or_ge m 2 with hlt | hge
    · exfalso
      interval_cases m
      · rw [hkval] at hacc
        have hpr := (probablyPrime_iff _ _).mp hacc
        have he : 2 ^ 1024 - 1 + 2 * 0 = 2 ^ 1024 - 1 := by omega
        rw [he] at hpr
        exact not_prime_pow_1024_sub_one hpr
      · rw [hkval] at hacc
        have hpr := (probablyPrime_iff _ _).mp hacc
        have he : 2 ^ 1024 - 1 + 2 * 1 = 2 ^ 1024 + 1 := by omega
        rw [he] at hpr
        exact not_prime_pow_1024_add_one hpr
    · exact hge
  refine ⟨_, heq, ?_, ?_⟩
  · rw [hm, hkval]
    omega
  · rw [Nat.lt_size, hm, hkval]
    omega

/-- The DRBG `StreamChaCha20` of `chacha.go`.  Modelled from the source plus
golang.org/x/crypto/chacha20 (external): the wrapped `cipher.Stream` is a
keystream function `ks` together with the current stream offset `pos`; the
4096-byte all-zero scratch buffer `zbuf` is represented by its length alone
(`ZBUF_LEN`). -/
structure StreamChaCha20 where
  ks : Nat → Nat
  pos : Nat

/-- Length of the `zbuf` scratch buffer allocated by `NewStreamChaCha20`. -/
def ZBUF_LEN : Nat := 4096

/-- Modelled from golang.org/x/crypto/chacha20 (external):
`stream.XORKeyStream(dst[:chunk], zbuf[:chunk])` over the all-zero source
writes the next `chunk` keystream bytes and advances the stream offset. -/
def XORKeyStreamZeros (s : StreamChaCha20) (chunk : Nat) :
    List Nat × StreamChaCha20 :=
  ((List.range chunk).map (fun i => s.ks (s.pos + i)), ⟨s.ks, s.pos + chunk⟩)

/-- The `for n > 0` chunking loop of `StreamChaCha20.Read`: emit
`min n ZBUF_LEN` bytes per iteration until `n` bytes have been produced. -/
def readLoop (s : StreamChaCha20) (n : Nat) : List Nat × StreamChaCha20 :=
  if _h : n = 0 then ([], s)
  else
    let chunkSize := min n ZBUF_LEN
    let p1 := XORKeyStreamZeros s chunkSize
    let p2 := readLoop p1.2 (n - chunkSize)
    (p1.1 ++ p2.1, p2.2)
termination_by n
decreasing_by
  simp only [ZBUF_LEN]
  omega

/-- `StreamChaCha20.Read` from `chacha.go`: an empty request returns 0; a
one-byte request returns count 1 while leaving both the destination and the
cipher state untouched (the `MaybeReadByte` quirk); otherwise the request is
served from the keystream in `ZBUF_LEN` chunks. -/
def StreamChaCha20.Read (s : StreamChaCha20) (dst : List Nat) :
    Nat × List Nat × StreamChaCha20 :=
  if dst.length = 0 then (0, dst, s)
  else if dst.length = 1 then (1, dst, s)
  else
    let p := readLoop s dst.length
    (dst.length, p.1, p.2)

theorem readLoop_eq (s : StreamChaCha20) (n : Nat) :
    readLoop s n =
      ((List.range n).map (fun i => s.ks (s.pos + i)), ⟨s.ks, s.pos + n⟩) := by
  induction n using Nat.strong_induction_on generalizing s with
  | _ n ih =>
    rw [readLoop]
    by_cases h0 : n = 0
    · subst h0
      simp
    · rw [dif_neg h0]
      have hchunk : 0 < min n ZBUF_LEN := by
        simp only [ZBUF_LEN]
        omega
      have hlt : n - min n ZBUF_LEN < n := by omega
      simp only [XORKeyStreamZeros]
      rw [ih _ hlt]
      have hsplit : n = min n ZBUF_LEN + (n - min n ZBUF_LEN) := by omega
      dsimp only
      rw [Prod.mk.injEq]
      refine ⟨?_, ?_⟩
      · show (List.range (min n ZBUF_LEN)).map (fun i => s.ks (s.pos + i)) ++
          (List.range (n - min n ZBUF_LEN)).map
            (fun i => s.ks (s.pos + min n ZBUF_LEN + i)) =
          (List.range n).map (fun i => s.ks (s.pos + i))
        conv_rhs => rw [hsplit]
        rw [List.range_add, List.map_append, List.map_map]
        congr 1
        apply List.map_congr_left
        intro a _
        simp only [Function.comp_apply]
        ring_nf
      · show (⟨s.ks, s.pos + min n ZBUF_LEN + (n - min n ZBUF_LEN)⟩ : StreamChaCha20) =
          ⟨s.ks, s.pos + n⟩
        congr 1
        omega

/-- C6: a request of exactly one byte returns count 1 without touching the
destination or advancing the cipher state, so a subsequent read sees an
unchanged keystream position; a request of `n ≥ 2` bytes fills the
destination with exactly the next `n` keystream bytes and advances the
keystream position by exactly `n`. -/
theorem streamChaCha20_read_spec (s : StreamChaCha20) (dst : List Nat) :
    (dst.length = 1 → StreamChaCha20.Read s dst = (1, dst, s)) ∧
    (2 ≤ dst.length → StreamChaCha20.Read s dst =
      (dst.length, (List.range dst.length).map (fun i => s.ks (s.pos + i)),
        ⟨s.ks, s.pos + dst.length⟩)) := by
  constructor
  · intro h1
    rw [StreamChaCha20.Read, if_neg (by omega), if_pos h1]
  · intro h2
    rw [StreamChaCha20.Read, if_neg (by omega), if_neg (by omega)]
    simp only [readLoop_eq]

/-- C6 witness: with the identity keystream at offset 5 a one-byte read
returns 1 and leaves everything unchanged; at offset 0 a three-byte read
emits keystream bytes 0,1,2 and advances the offset to 3. -/
theorem streamChaCha20_read_spec_witness :
    StreamChaCha20.Read ⟨fun i => i, 5⟩ [9] = (1, [9], ⟨fun i => i, 5⟩) ∧
    StreamChaCha20.Read ⟨fun i => i, 0⟩ [7, 8, 9] = (3, [0, 1, 2], ⟨fun i => i, 3⟩) := by
  constructor
  · exact (streamChaCha20_read_spec ⟨fun i => i, 5⟩ [9]).1 (by decide)
  · have h := (streamChaCha20_read_spec ⟨fun i => i, 0⟩ [7, 8, 9]).2 (by decide)
    rw [h]
    rfl

/-- `ECCCurveID` from `keygen_ecc.go` (`None` is `ECCCurveNone`, the zero
value; invalid integer ids all behave like the `switch` default and are
collapsed into `None`). -/
inductive ECCCurveID
  | None
  | P256
  | P384
  | P521
  | Ed25519
deriving DecidableEq

/-- `getSizeECC` from `keygen_ecc.go`. -/
def getSizeECC : ECCCurveID → Nat
  | .P256 => 256
  | .P384 => 384
  | .P521 => 521
  | .Ed25519 => 256
  | .None => 0

/-- Modelled from Go `crypto/elliptic` (external): the group orders
`params.N` of the NIST curves P-256, P-384 and P-521 (zero for the ids the
`switch` of `generateNistECC` rejects). -/
def nistOrder : ECCCurveID → Nat
  | .P256 => 115792089210356248762697446949407573529996955224135760342422259061068512044369
  | .P384 => 39402006196394479212279040100143613805079739270465446667946905279627659399113263569398956308152294913554433653942643
  | .P521 => 6864797660130609714981900799081393217269435300143305409394463459185543183397655394245057746333217197532963996371363321113864768612440380340372808892707005449
  | _ => 0

theorem size_nistOrder_P256 : Nat.size (nistOrder ECCCurveID.P256) = 256 := by
  have h1 : Nat.size (nistOrder ECCCurveID.P256) ≤ 256 := by
    rw [Nat.size_le, nistOrder]
    norm_num
  have h2 : 255 < Nat.size (nistOrder ECCCurveID.P256) := by
    rw [Nat.lt_size, nistOrder]
    norm_num
  omega

theorem size_nistOrder_P384 : Nat.size (nistOrder ECCCurveID.P384) = 384 := by
  have h1 : Nat.size (nistOrder ECCCurveID.P384) ≤ 384 := by
    rw [Nat.size_le, nistOrder]
    norm_num
  have h2 : 383 < Nat.size (nistOrder ECCCurveID.P384) := by
    rw [Nat.lt_size, nistOrder]
    norm_num
  omega

theorem size_nistOrder_P521 : Nat.size (nistOrder ECCCurveID.P521) = 521 := by
  have h1 : Nat.size (nistOrder ECCCurveID.P521) ≤ 521 := by
    rw [Nat.size_le, nistOrder]
    norm_num
  have h2 : 520 < Nat.size (nistOrder ECCCurveID.P521) := by
    rw [Nat.lt_size, nistOrder]
    norm_num
  omega

/-- `generateScalarWide` from `keygen_ecc.go`: read `byteLen` bytes
(`io.ReadFull`), interpret them big-endian, reduce modulo `n-1` and add one. -/
def generateScalarWide (src : List Nat) (n : Nat) (byteLen : Nat) :
    Option (Nat × List Nat) :=
  if byteLen ≤ src.length then
    some (bytesBE (src.take byteLen) % (n - 1) + 1, src.drop byteLen)
  else none

/-- `RSAKeyID` from `keygen_rsa.go` (`R2048` is the Go constant `RSAKey2048`,
and so on; `None` is `RSAKeyNone`, which also absorbs invalid integer ids,
matching the `switch` default of `getSizeRSA`). -/
inductive RSAKeyID
  | None
  | R2048
  | R3072
  | R4096
  | R8192
deriving DecidableEq

/-- `getSizeRSA` from `keygen_rsa.go`. -/
def getSizeRSA : RSAKeyID → Nat
  | .R2048 => 2048
  | .R3072 => 3072
  | .R4096 => 4096
  | .R8192 => 8192
  | .None => 0

/-- Fuelled extended-Euclid loop: state `(r0, r1)` with Bezout coefficients
`(t0, t1)` of the second argument; one Euclid step per unit of fuel. -/
def egcdLoop : Nat → Nat → Nat → Int → Int → Nat × Int
  | 0, r0, _, t0, _ => (r0, t0)
  | fuel + 1, r0, r1, t0, t1 =>
    if r1 = 0 then (r0, t0)
    else egcdLoop fuel r1 (r0 % r1) t1 (t0 - ((r0 / r1 : Nat) : Int) * t1)

/-- Modelled from Go `math/big`'s `(*Int).ModInverse(g, n)` (external):
returns the least non-negative inverse of `a` modulo `n` when
`gcd(a, n) = 1`, and `none` (Go: a nil `*Int`) otherwise.  The fuel
`a % n + 1` dominates the number of Euclid steps. -/
def modInverse (a n : Nat) : Option Nat :=
  if (egcdLoop (a % n + 1) n (a % n) 0 1).1 = 1 then
    some (((egcdLoop (a % n + 1) n (a % n) 0 1).2 % (n : Int)).toNat)
  else none

/-- The RSA private key assembled by `generateRSA`:
`&rsa.PrivateKey{PublicKey: {N: n, E: e}, D: d, Primes: []{p, q}}`. -/
structure RSAKey where
  n : Nat
  e : Nat
  d : Nat
  p : Nat
  q : Nat
deriving DecidableEq

/-- Modelled from Go `crypto/rsa`'s `(*PrivateKey).Validate` (external): the
modulus is the product of the primes and `e·d ≡ 1` modulo each `prime - 1`.
(Validate does not re-test primality.) -/
def rsaValidate (k : RSAKey) : Bool :=
  (k.n == k.p * k.q) && ((k.e * k.d) % (k.p - 1) == 1) && ((k.e * k.d) % (k.q - 1) == 1)

theorem derivePrime_rest_lt (src : List Nat) (bits r : Nat) (rest : List Nat)
    (h : derivePrime src bits = some (r, rest)) : rest.length < src.length := by
  rw [derivePrime] at h
  by_cases hc : 1 ≤ (bits + 7) / 8 ∧ (bits + 7) / 8 ≤ src.length
  · rw [dif_pos hc] at h
    have hrest : rest = src.drop ((bits + 7) / 8) :=
      (congrArg Prod.snd (Option.some.inj h)).symm
    rw [hrest, List.length_drop]
    omega
  · rw [dif_neg hc] at h
    exact absurd h (by simp)

/-- The `for p.Cmp(q) == 0 { q, err = derivePrime(r, half) }` resampling loop
of `generateRSA` (entered unconditionally because `q` starts out equal to
`p`): keep drawing full-size candidates until one differs from `p`.  Each
iteration consumes bytes, so the loop is well founded on the source. -/
def resampleQ (p bits : Nat) (src : List Nat) : Option (Nat × List Nat) :=
  match hq : derivePrime src bits with
  | Option.none => Option.none
  | some (q, rest) =>
    if q = p then resampleQ p bits rest
    else some (q, rest)
termination_by src.length
decreasing_by
  exact derivePrime_rest_lt src bits _ _ hq

/-- `generateRSA` from `keygen_rsa.go`: look up the size, derive `p`, derive
a distinct `q`, then `n = p·q`, `φ = (p-1)(q-1)`, `e = 65537`,
`d = e⁻¹ mod φ` (failing when the inverse does not exist), and validate. -/
def generateRSA (src : List Nat) (id : RSAKeyID) : Option (RSAKey × List Nat) :=
  if getSizeRSA id = 0 then Option.none
  else
    match derivePrime src (getSizeRSA id / 2) with
    | Option.none => Option.none
    | some (p, rest) =>
      match resampleQ p (getSizeRSA id / 2) rest with
      | Option.none => Option.none
      | some (q, rest2) =>
        match modInverse 65537 ((p - 1) * (q - 1)) with
        | Option.none => Option.none
        | some d =>
          if rsaValidate ⟨p * q, 65537, d, p, q⟩ then
            some (⟨p * q, 65537, d, p, q⟩, rest2)
          else Option.none

/-- Go strings, modelled as lists of characters (the repository only handles
ASCII wordlist data and mnemonics). -/
abbrev Str := List Char

/-- Modelled from Go `strings.ToLower` (external), restricted to the basic
latin range that `Char.toLower` handles. -/
def strToLower (s : Str) : Str := s.map Char.toLower

/-- Modelled from Go `strings.ToUpper` (external), likewise. -/
def strToUpper (s : Str) : Str := s.map Char.toUpper

/-- The per-entry test of the `GetWordIndex` loop: an exact match for tokens
shorter than four characters, otherwise `strings.HasPrefix(w, word)` (the
redundant second `ToLower` of the Go code is a no-op, `word` being already
lowercased). -/
def wordMatches (w2 w : Str) : Bool :=
  if w2.length < 4 then w2 == w else w2.isPrefixOf w

/-- The indexed scan over the wordlist inside `GetWordIndex`. -/
def lookupAux (w2 : Str) (i : Nat) : List Str → Option (Nat × Str)
  | [] => Option.none
  | w :: rest => if wordMatches w2 w then some (i, w) else lookupAux w2 (i + 1) rest

/-- `GetWordIndex` from `mnemonic.go`: truncate the token to its first four
characters, lowercase it, and return the first wordlist entry that matches
(`none` models the `word not found` error).  The wordlist `wl` stands for the
package-level `bip39Words` loaded from the external go-bip39 library. -/
def GetWordIndex (wl : List Str) (word : Str) : Option (Nat × Str) :=
  lookupAux (strToLower (if 4 < word.length then word.take 4 else word)) 0 wl

/-- `Mnemonic.Normalize` from `mnemonic.go`: replace every word by the full
wordlist entry it resolves to, failing on the first unknown word. -/
def Mnemonic.Normalize (wl : List Str) (m : List Str) : Option (List Str) :=
  m.mapM (fun w => (GetWordIndex wl w).map (fun r => r.2))

/-- `Mnemonic.Short` from `mnemonic.go`: truncate every word to its first
four characters and uppercase it. -/
def Mnemonic.Short (m : List Str) : List Str :=
  m.map (fun w => strToUpper (if 4 < w.length then w.take 4 else w))

/-- `strings.Join(m[:], " ")` of `Mnemonic.String`. -/
def joinSpace : List Str → Str
  | [] => []
  | [w] => w
  | w :: rest => w ++ ' ' :: joinSpace rest

/-- Modelled from Go `unicode.IsSpace` (external), ASCII subset. -/
def isSpaceChar (c : Char) : Bool :=
  c == ' ' || c == '\t' || c == '\n' || c == '\r' || c == '\x0b' || c == '\x0c'

/-- Modelled from Go `strings.TrimSpace` (external): drop leading and
trailing whitespace. -/
def trimSpace (s : Str) : Str :=
  ((s.dropWhile isSpaceChar).reverse.dropWhile isSpaceChar).reverse

/-- Modelled from Go `strings.Fields` (external): split around maximal runs
of whitespace. -/
def fields : Str → List Str
  | [] => []
  | c :: cs =>
    if isSpaceChar c then fields cs
    else
      match cs with
      | [] => [[c]]
      | c2 :: _ =>
        if isSpaceChar c2 then [c] :: fields cs
        else
          match fields cs with
          | [] => [[c]]
          | w :: ws => (c :: w) :: ws

/-- The error kinds of the parser, following the spec's taxonomy (section 7).
`badChecksum` is included so the checksum-validation claim is statable;
`ParseMnemonic` never constructs it. -/
inductive ParseErr
  | badLength (found : Nat)
  | unknownWord (w : Str)
  | badChecksum
deriving DecidableEq

/-- `MNEMONIC_WORD_COUNT = 24` from `mnemonic.go`. -/
def MNEMONIC_WORD_COUNT : Nat := 24

/-- `ParseMnemonic` from `mnemonic.go`: split the trimmed input into fields,
require exactly 24 tokens, and resolve each token against the wordlist.  No
checksum of any kind is computed. -/
def ParseMnemonic (wl : List Str) (s : Str) : Except ParseErr (List Str) :=
  if (fields (trimSpace s)).length ≠ MNEMONIC_WORD_COUNT then
    Except.error (ParseErr.badLength (fields (trimSpace s)).length)
  else
    (fields (trimSpace s)).mapM (fun w =>
      match GetWordIndex wl w with
      | some r => Except.ok r.2
      | Option.none => Except.error (ParseErr.unknownWord w))

/-- The `crypto.PrivateKey` values produced by the generators: an RSA key, an
`ecdsa.PrivateKey` (curve, scalar `D`, public point `X, Y`), or an
`ed25519.PrivateKey` (held as the expanded key bytes). -/
inductive PrivKey
  | rsa (k : RSAKey)
  | ecdsa (curve : ECCCurveID) (d : Nat) (x y : Nat)
  | ed25519 (priv : List Nat)
deriving DecidableEq

/-- `KeyType` from `keys.go` (a string in Go: `""`, `"ECC"`, `"RSA"`; any
other string behaves like the `switch` default and is collapsed into
`None`). -/
inductive KeyType
  | None
  | ECC
  | RSA
deriving DecidableEq

/-- Modelled from the external collaborators of the pipeline, as opaque
functions the theorems quantify over:
`newSeed` is `bip39.NewSeed` (PBKDF2-HMAC-SHA512 per BIP-39);
`hkdfStream` is the byte stream of `hkdf.New(sha256.New, seed, salt, nil)`;
`chachaKS` is the XChaCha20 keystream of a key and nonce from counter 0;
`scalarBaseMult` is `curve.ScalarBaseMult` on the fixed-width scalar bytes;
`ed25519FromSeed` is `ed25519.NewKeyFromSeed`;
`mnemonicFromEntropy` is `bip39.NewMnemonic`;
`marshalPKCS8` is `x509.MarshalPKCS8PrivateKey`. -/
structure Externals where
  newSeed : Str → Str → List Nat
  hkdfStream : List Nat → List Nat → List Nat
  chachaKS : List Nat → List Nat → Nat → Nat
  scalarBaseMult : ECCCurveID → List Nat → Nat × Nat
  ed25519FromSeed : List Nat → List Nat
  mnemonicFromEntropy : List Nat → Str
  marshalPKCS8 : PrivKey → List Nat

/-- `NewStreamChaCha20` from `chacha.go`, with the cipher of the `Externals`:
read 32 key bytes, then 24 XChaCha20 nonce bytes, from the given reader
(each an `io.ReadFull` that fails on a short source) and start the keystream
at counter 0. -/
def NewStreamChaCha20 (ext : Externals) (r : List Nat) :
    Option (StreamChaCha20 × List Nat) :=
  if 32 ≤ r.length then
    if 24 ≤ (r.drop 32).length then
      some (⟨ext.chachaKS (r.take 32) ((r.drop 32).take 24), 0⟩, (r.drop 32).drop 24)
    else Option.none
  else Option.none

/-- `(*big.Int).FillBytes` (external): the fixed-width big-endian byte
rendering of a number, as passed to `ScalarBaseMult`. -/
def fillBytes (x len : Nat) : List Nat :=
  (List.range len).map (fun i => x / 256 ^ (len - 1 - i) % 256)

/-- `generateNistECC` from `keygen_ecc.go`: select the curve, compute the
scalar byte sizes from the order's bit length, draw the wide scalar, and
assemble the `ecdsa.PrivateKey` with its public point. -/
def generateNistECC (ext : Externals) (src : List Nat) (id : ECCCurveID) :
    Option (PrivKey × List Nat) :=
  match id with
  | .P256 | .P384 | .P521 =>
    (generateScalarWide src (nistOrder id)
        ((Nat.size (nistOrder id) + 128 + 7) / 8)).map
      (fun r =>
        (PrivKey.ecdsa id r.1
          (ext.scalarBaseMult id (fillBytes r.1 ((Nat.size (nistOrder id) + 7) / 8))).1
          (ext.scalarBaseMult id (fillBytes r.1 ((Nat.size (nistOrder id) + 7) / 8))).2,
          r.2))
  | _ => Option.none

/-- `generateEdECC` from `keygen_ecc.go`: read the 32-byte Ed25519 seed and
expand it per RFC 8032. -/
def generateEdECC (ext : Externals) (src : List Nat) (id : ECCCurveID) :
    Option (PrivKey × List Nat) :=
  match id with
  | .Ed25519 =>
    if 32 ≤ src.length then
      some (PrivKey.ed25519 (ext.ed25519FromSeed (src.take 32)), src.drop 32)
    else Option.none
  | _ => Option.none

/-- `generateECC` from `keygen_ecc.go`. -/
def generateECC (ext : Externals) (src : List Nat) (id : ECCCurveID) :
    Option (PrivKey × List Nat) :=
  match id with
  | .P256 | .P384 | .P521 => generateNistECC ext src id
  | .Ed25519 => generateEdECC ext src id
  | .None => Option.none

/-- `ECCCurveID(keyId)` — the Go integer-to-enum cast, with invalid values
collapsed into `None` (they all hit `switch` defaults). -/
def eccCurveIDOfNat : Nat → ECCCurveID
  | 1 => .P256
  | 2 => .P384
  | 3 => .P521
  | 4 => .Ed25519
  | _ => .None

/-- `RSAKeyID(keyId)` — the Go integer-to-enum cast, with invalid values
collapsed into `None`. -/
def rsaKeyIDOfNat : Nat → RSAKeyID
  | 1 => .R2048
  | 2 => .R3072
  | 3 => .R4096
  | 4 => .R8192
  | _ => .None

/-- `[]byte(salt)` — UTF-8 bytes of the salt (ASCII model). -/
def utf8Bytes (s : Str) : List Nat := s.map Char.toNat

/-- The `Key` struct of `keys.go` (the fields recorded by
`GenerateKeyFromMnemonic`; `encrypted` starts out false and is omitted
together with the out-of-scope encryption methods). -/
structure Key where
  keyType : KeyType
  keyId : Nat
  salt : Str
  privateKey : PrivKey
  der : List Nat
  mnemonic : List Str
deriving DecidableEq

/-- `GenerateKeyFromMnemonic` from `keygen.go`: normalize the mnemonic,
derive the BIP-39 seed from the mnemonic string and salt, open the
HKDF-SHA256 stream over `(seed, saltBytes)`, hand that stream (the `kdf`
reader itself — no DRBG is interposed) to the chosen generator, and marshal
the result.  The unused `osRand` argument models the ambient OS randomness
(`crypto/rand`) that the process could consult but this function never
does; `GenerateKey` below does consume it. -/
def GenerateKeyFromMnemonic (wl : List Str) (ext : Externals) (osRand : Nat → Nat)
    (keyType : KeyType) (keyId : Nat) (salt : Str) (mnemonic : List Str) :
    Option Key :=
  match Mnemonic.Normalize wl mnemonic with
  | Option.none => Option.none
  | some m2 =>
    match
      (match keyType with
       | KeyType.ECC =>
          generateECC ext (ext.hkdfStream (ext.newSeed (joinSpace m2) salt) (utf8Bytes salt))
            (eccCurveIDOfNat keyId)
       | KeyType.RSA =>
          (generateRSA (ext.hkdfStream (ext.newSeed (joinSpace m2) salt) (utf8Bytes salt))
            (rsaKeyIDOfNat keyId)).map (fun (r : RSAKey × List Nat) => (PrivKey.rsa r.1, r.2))
       | KeyType.None => Option.none) with
    | Option.none => Option.none
    | some (priv, _) =>
      some ⟨keyType, keyId, salt, priv, ext.marshalPKCS8 priv, m2⟩

/-- `GenerateMnemonic` from `mnemonic.go`: 32 bytes of OS entropy, encoded
to words by the external BIP-39 library, then normalized. -/
def GenerateMnemonic (wl : List Str) (ext : Externals) (osRand : Nat → Nat) :
    Option (List Str) :=
  Mnemonic.Normalize wl (fields (trimSpace (ext.mnemonicFromEntropy
    ((List.range 32).map osRand))))

/-- `GenerateKey` from `keygen.go`: roll a fresh mnemonic (this is the only
consumer of OS randomness), then derive. -/
def GenerateKey (wl : List Str) (ext : Externals) (osRand : Nat → Nat)
    (keyType : KeyType) (keyId : Nat) (salt : Str) : Option Key :=
  match GenerateMnemonic wl ext osRand with
  | Option.none => Option.none
  | some m => GenerateKeyFromMnemonic wl ext osRand keyType keyId salt m

/-- Modelled from the spec: the pipeline the specification describes, in
which the HKDF output is used only to key the ChaCha20 DRBG
(`NewStreamChaCha20`) and the samplers read the DRBG keystream from counter
0.  Missing from the code: `GenerateKeyFromMnemonic` never calls
`NewStreamChaCha20`.  This function materialises the first `count` bytes the
samplers would consume under the spec's wiring. -/
def specDRBGBytes (ext : Externals) (seed saltBytes : List Nat) (count : Nat) :
    List Nat :=
  (List.range count).map
    (ext.chachaKS ((ext.hkdfStream seed saltBytes).take 32)
      (((ext.hkdfStream seed saltBytes).drop 32).take 24))

theorem generateScalarWide_range (src : List Nat) (n byteLen : Nat) (hn : 2 ≤ n)
    (d : Nat) (rest : List Nat)
    (h : generateScalarWide src n byteLen = some (d, rest)) :
    1 ≤ d ∧ d ≤ n - 1 := by
  rw [generateScalarWide] at h
  by_cases hc : byteLen ≤ src.length
  · rw [if_pos hc] at h
    have hd : d = bytesBE (src.take byteLen) % (n - 1) + 1 :=
      ((congrArg Prod.fst (Option.some.inj h)).symm : _)
    have hmod : bytesBE (src.take byteLen) % (n - 1) < n - 1 :=
      Nat.mod_lt _ (by omega)
    omega
  · rw [if_neg hc] at h
    exact absurd h (by simp)

/-- Full characterisation of `generateNistECC` on the three NIST curves,
shared by several theorems below. -/
theorem generateNistECC_char (ext : Externals) (src : List Nat) (id : ECCCurveID)
    (hid : id = ECCCurveID.P256 ∨ id = ECCCurveID.P384 ∨ id = ECCCurveID.P521) :
    Nat.size (nistOrder id) = getSizeECC id ∧
    ((Nat.size (nistOrder id) + 128 + 7) / 8 ≤ src.length →
      generateNistECC ext src id =
        some (PrivKey.ecdsa id
          (bytesBE (src.take ((Nat.size (nistOrder id) + 128 + 7) / 8)) % (nistOrder id - 1) + 1)
          (ext.scalarBaseMult id (fillBytes
            (bytesBE (src.take ((Nat.size (nistOrder id) + 128 + 7) / 8)) % (nistOrder id - 1) + 1)
            ((Nat.size (nistOrder id) + 7) / 8))).1
          (ext.scalarBaseMult id (fillBytes
            (bytesBE (src.take ((Nat.size (nistOrder id) + 128 + 7) / 8)) % (nistOrder id - 1) + 1)
            ((Nat.size (nistOrder id) + 7) / 8))).2,
          src.drop ((Nat.size (nistOrder id) + 128 + 7) / 8))) ∧
    (∀ d x y rest, generateNistECC ext src id = some (PrivKey.ecdsa id d x y, rest) →
      1 ≤ d ∧ d ≤ nistOrder id - 1) ∧
    (src.length < (Nat.size (nistOrder id) + 128 + 7) / 8 →
      generateNistECC ext src id = Option.none) := by
  have hsize : Nat.size (nistOrder id) = getSizeECC id := by
    rcases hid with rfl | rfl | rfl
    · rw [size_nistOrder_P256]; rfl
    · rw [size_nistOrder_P384]; rfl
    · rw [size_nistOrder_P521]; rfl
  have hn2 : 2 ≤ nistOrder id := by
    rcases hid with rfl | rfl | rfl <;> rw [nistOrder] <;> norm_num
  have hunfold : generateNistECC ext src id =
      (generateScalarWide src (nistOrder id)
          ((Nat.size (nistOrder id) + 128 + 7) / 8)).map
        (fun r =>
          (PrivKey.ecdsa id r.1
            (ext.scalarBaseMult id (fillBytes r.1 ((Nat.size (nistOrder id) + 7) / 8))).1
            (ext.scalarBaseMult id (fillBytes r.1 ((Nat.size (nistOrder id) + 7) / 8))).2,
            r.2)) := by
    rcases hid with rfl | rfl | rfl <;> rfl
  refine ⟨hsize, ?_, ?_, ?_⟩
  · intro hlen
    rw [hunfold, generateScalarWide, if_pos hlen]
    rfl
  · intro d x y rest h
    rw [hunfold] at h
    cases hsw : generateScalarWide src (nistOrder id)
        ((Nat.size (nistOrder id) + 128 + 7) / 8) with
    | none =>
      rw [hsw] at h
      exact absurd h (by simp)
    | some val =>
      obtain ⟨d2, rest2⟩ := val
      rw [hsw] at h
      simp only [Option.map_some'] at h
      have hd2 : d2 = d := by
        have h1 := congrArg Prod.fst (Option.some.inj h)
        simp only [PrivKey.ecdsa.injEq] at h1
        exact h1.2.1
      subst hd2
      exact generateScalarWide_range src (nistOrder id) _ hn2 d2 rest2 hsw
  · intro hshort
    rw [hunfold, generateScalarWide, if_neg (by omega)]
    rfl

/-- C5: for each NIST curve with group order `n` of bit length `L` (256, 384,
521), the scalar sampler reads exactly `(L + 128 + 7) / 8 = ⌈(L+128)/8⌉`
bytes — failing if the source is shorter, leaving exactly `src.drop` of that
count behind on success — interprets them as a big-endian integer `k`, and
returns `d = k mod (n-1) + 1`; every scalar an accepting run can return
satisfies `1 ≤ d ≤ n - 1`. -/
theorem generateNistECC_spec (ext : Externals) (src : List Nat) (id : ECCCurveID)
    (hid : id = ECCCurveID.P256 ∨ id = ECCCurveID.P384 ∨ id = ECCCurveID.P521) :
    Nat.size (nistOrder id) = getSizeECC id ∧
    ((Nat.size (nistOrder id) + 128 + 7) / 8 ≤ src.length →
      ∃ x y, generateNistECC ext src id =
        some (PrivKey.ecdsa id
          (bytesBE (src.take ((Nat.size (nistOrder id) + 128 + 7) / 8)) % (nistOrder id - 1) + 1)
          x y,
          src.drop ((Nat.size (nistOrder id) + 128 + 7) / 8))) ∧
    (∀ d x y rest, generateNistECC ext src id = some (PrivKey.ecdsa id d x y, rest) →
      1 ≤ d ∧ d ≤ nistOrder id - 1) ∧
    (src.length < (Nat.size (nistOrder id) + 128 + 7) / 8 →
      generateNistECC ext src id = Option.none) := by
  obtain ⟨h1, h2, h3, h4⟩ := generateNistECC_char ext src id hid
  exact ⟨h1, fun hlen => ⟨_, _, h2 hlen⟩, h3, h4⟩

/-- Concrete externals used by witnesses: every external collaborator is a
constant function. -/
def extWitness : Externals :=
  ⟨fun _ _ => [], fun _ _ => [], fun _ _ _ => 0, fun _ _ => (0, 0),
    fun _ => [], fun _ => [], fun _ => []⟩

/-- C5 witness: the theorem instantiated on P-256 with a 48-byte source. -/
theorem generateNistECC_spec_witness :
    (ECCCurveID.P256 = ECCCurveID.P256 ∨ ECCCurveID.P256 = ECCCurveID.P384 ∨
      ECCCurveID.P256 = ECCCurveID.P521) ∧
    (Nat.size (nistOrder ECCCurveID.P256) = getSizeECC ECCCurveID.P256 ∧
    ((Nat.size (nistOrder ECCCurveID.P256) + 128 + 7) / 8 ≤ (List.replicate 48 7).length →
      ∃ x y, generateNistECC extWitness (List.replicate 48 7) ECCCurveID.P256 =
        some (PrivKey.ecdsa ECCCurveID.P256
          (bytesBE ((List.replicate 48 7).take
              ((Nat.size (nistOrder ECCCurveID.P256) + 128 + 7) / 8)) %
            (nistOrder ECCCurveID.P256 - 1) + 1) x y,
          (List.replicate 48 7).drop
            ((Nat.size (nistOrder ECCCurveID.P256) + 128 + 7) / 8))) ∧
    (∀ d x y rest, generateNistECC extWitness (List.replicate 48 7) ECCCurveID.P256 =
        some (PrivKey.ecdsa ECCCurveID.P256 d x y, rest) →
      1 ≤ d ∧ d ≤ nistOrder ECCCurveID.P256 - 1) ∧
    ((List.replicate 48 7).length < (Nat.size (nistOrder ECCCurveID.P256) + 128 + 7) / 8 →
      generateNistECC extWitness (List.replicate 48 7) ECCCurveID.P256 = Option.none)) :=
  ⟨Or.inl rfl,
    generateNistECC_spec extWitness (List.replicate 48 7) ECCCurveID.P256 (Or.inl rfl)⟩

/-- C2: the derivation consults no randomness beyond the mnemonic and salt.
`GenerateKeyFromMnemonic` is a pure function of the wordlist, the (fixed)
external collaborators, the key type and id, the salt and the mnemonic: its
result — in particular the unencrypted PKCS#8 DER it records — is invariant
under the ambient OS randomness stream, the one input that distinguishes two
independent invocations (and which `GenerateKey`'s mnemonic roll does
consume). -/
theorem generateKeyFromMnemonic_deterministic (wl : List Str) (ext : Externals)
    (osRand1 osRand2 : Nat → Nat) (keyType : KeyType) (keyId : Nat)
    (salt : Str) (m : List Str) :
    GenerateKeyFromMnemonic wl ext osRand1 keyType keyId salt m =
      GenerateKeyFromMnemonic wl ext osRand2 keyType keyId salt m ∧
    (GenerateKeyFromMnemonic wl ext osRand1 keyType keyId salt m).map Key.der =
      (GenerateKeyFromMnemonic wl ext osRand2 keyType keyId salt m).map Key.der :=
  ⟨rfl, rfl⟩

/-- The word `hedgehog` (appears in the repository's test mnemonics, so it is
a genuine wordlist entry). -/
def hedgehogW : Str := ['h', 'e', 'd', 'g', 'e', 'h', 'o', 'g']

/-- A one-entry wordlist for concrete runs. -/
def wl0 : List Str := [hedgehogW]

/-- A 24-word mnemonic over `wl0`. -/
def mn24 : List Str := List.replicate 24 hedgehogW

/-- Concrete externals for the C1 run: the HKDF stream is 400 bytes of `1`,
the ChaCha20 keystream is identically `0`, so raw-HKDF reads and DRBG reads
are distinguishable. -/
def extC1 : Externals :=
  ⟨fun _ _ => [], fun _ _ => List.replicate 400 1, fun _ _ _ => 0,
    fun _ _ => (0, 0), fun _ => [], fun _ => [], fun _ => []⟩

/-- Structural unfolding of `GenerateKeyFromMnemonic` on the ECC path, kept
fully symbolic so no large-literal computation is ever forced. -/
theorem GenerateKeyFromMnemonic_ecc (wl : List Str) (ext : Externals)
    (osRand : Nat → Nat) (keyId : Nat) (salt : Str) (mnemonic m2 : List Str)
    (hn : Mnemonic.Normalize wl mnemonic = some m2)
    (priv : PrivKey) (rest : List Nat)
    (hg : generateECC ext
        (ext.hkdfStream (ext.newSeed (joinSpace m2) salt) (utf8Bytes salt))
        (eccCurveIDOfNat keyId) = some (priv, rest)) :
    GenerateKeyFromMnemonic wl ext osRand KeyType.ECC keyId salt mnemonic =
      some ⟨KeyType.ECC, keyId, salt, priv, ext.marshalPKCS8 priv, m2⟩ := by
  rw [GenerateKeyFromMnemonic, hn]
  dsimp only
  rw [hg]

theorem ecc_sampler_input_hkdf : generateECC extC1 (List.replicate 400 1) (eccCurveIDOfNat 1) =
      some (PrivKey.ecdsa ECCCurveID.P256
        (bytesBE (List.replicate 48 1) % (nistOrder ECCCurveID.P256 - 1) + 1) 0 0,
        (List.replicate 400 1).drop 48) := by
    have h := (generateNistECC_char extC1 (List.replicate 400 1)
      ECCCurveID.P256 (Or.inl rfl)).2.1
    rw [size_nistOrder_P256] at h
    have hlen : (256 + 128 + 7) / 8 ≤ (List.replicate 400 (1 : Nat)).length := by simp
    have h2 := h hlen
    have htake : (List.replicate 400 (1 : Nat)).take ((256 + 128 + 7) / 8) =
        List.replicate 48 1 := by decide
    rw [htake] at h2
    have hdrop : ((256 + 128 + 7) / 8 : Nat) = 48 := by norm_num
    rw [hdrop] at h2
    exact h2

/-- C1: code-bug demonstration.  The spec requires the samplers to read only
the ChaCha20 DRBG keyed by the first 56 HKDF bytes, never the HKDF output
directly — but `GenerateKeyFromMnemonic` passes the `kdf` reader itself to
`generateECC`/`generateRSA` and never calls `NewStreamChaCha20` (the DRBG is
dead code).  Concretely, with an HKDF stream of all `1` bytes and a ChaCha20
keystream that is identically `0`, the P-256 scalar is computed from the 48
raw HKDF bytes (all `1`s), while the spec's pipeline would have fed the
sampler 48 zero bytes and produced a different scalar. -/
theorem generateKeyFromMnemonic_bypasses_drbg :
    ∃ key : Key,
      GenerateKeyFromMnemonic wl0 extC1 (fun _ => 0) KeyType.ECC 1 [] mn24 = some key ∧
      key.privateKey = PrivKey.ecdsa ECCCurveID.P256
        (bytesBE (List.replicate 48 1) % (nistOrder ECCCurveID.P256 - 1) + 1) 0 0 ∧
      (extC1.hkdfStream (extC1.newSeed (joinSpace mn24) []) (utf8Bytes [])).take 48 =
        List.replicate 48 1 ∧
      specDRBGBytes extC1 (extC1.newSeed (joinSpace mn24) []) (utf8Bytes []) 48 =
        List.replicate 48 0 ∧
      bytesBE (List.replicate 48 1) % (nistOrder ECCCurveID.P256 - 1) + 1 ≠
        bytesBE (List.replicate 48 0) % (nistOrder ECCCurveID.P256 - 1) + 1 := by
  have hnorm : Mnemonic.Normalize wl0 mn24 = some mn24 := by decide
  refine ⟨⟨KeyType.ECC, 1, [], PrivKey.ecdsa ECCCurveID.P256
      (bytesBE (List.replicate 48 1) % (nistOrder ECCCurveID.P256 - 1) + 1) 0 0, [], mn24⟩,
    ?_, rfl, by decide, by decide, by decide⟩
  have hmar : extC1.marshalPKCS8 (PrivKey.ecdsa ECCCurveID.P256
      (bytesBE (List.replicate 48 1) % (nistOrder ECCCurveID.P256 - 1) + 1) 0 0) = [] := rfl
  have := GenerateKeyFromMnemonic_ecc wl0 extC1 (fun _ => 0) 1 [] mn24 mn24 hnorm
    (PrivKey.ecdsa ECCCurveID.P256
      (bytesBE (List.replicate 48 1) % (nistOrder ECCCurveID.P256 - 1) + 1) 0 0)
    ((List.replicate 400 1).drop 48)
    (by
      have harg : extC1.hkdfStream (extC1.newSeed (joinSpace mn24) []) (utf8Bytes []) =
          List.replicate 400 1 := rfl
      rw [harg]
      exact ecc_sampler_input_hkdf)
  rw [this, hmar]

theorem char_toNat_ofNat (n : Nat) (h : n < 55296) : (Char.ofNat n).toNat = n := by
  have hv : n.isValidChar := Or.inl h
  rw [Char.ofNat, dif_pos hv]
  rfl

theorem char_eq_iff_toNat (c d : Char) : c = d ↔ c.toNat = d.toNat := by
  constructor
  · rintro rfl; rfl
  · intro h
    exact Char.ext (UInt32.ext h)

theorem toLower_toNat (c : Char) :
    (Char.toLower c).toNat = if 65 ≤ c.toNat ∧ c.toNat ≤ 90 then c.toNat + 32 else c.toNat := by
  rw [Char.toLower]
  by_cases h : c.toNat ≥ 65 ∧ c.toNat ≤ 90
  · rw [if_pos h, if_pos ⟨h.1, h.2⟩, char_toNat_ofNat _ (by omega)]
  · rw [if_neg h, if_neg (by omega)]

theorem toUpper_toNat (c : Char) :
    (Char.toUpper c).toNat = if 97 ≤ c.toNat ∧ c.toNat ≤ 122 then c.toNat - 32 else c.toNat := by
  rw [Char.toUpper]
  by_cases h : c.toNat ≥ 97 ∧ c.toNat ≤ 122
  · rw [if_pos h, if_pos ⟨h.1, h.2⟩, char_toNat_ofNat _ (by omega)]
  · rw [if_neg h, if_neg (by omega)]

theorem toLower_toUpper (c : Char) : (Char.toUpper c).toLower = c.toLower := by
  rw [char_eq_iff_toNat, toLower_toNat, toLower_toNat, toUpper_toNat]
  by_cases h : 97 ≤ c.toNat ∧ c.toNat ≤ 122
  · rw [if_pos h, if_pos (by omega), if_neg (by omega)]
    omega
  · rw [if_neg h]

theorem isSpaceChar_iff (c : Char) :
    isSpaceChar c = true ↔
      c.toNat = 32 ∨ c.toNat = 9 ∨ c.toNat = 10 ∨ c.toNat = 13 ∨
      c.toNat = 11 ∨ c.toNat = 12 := by
  have h32 : (' ' : Char).toNat = 32 := by decide
  have h9 : ('\t' : Char).toNat = 9 := by decide
  have h10 : ('\n' : Char).toNat = 10 := by decide
  have h13 : ('\r' : Char).toNat = 13 := by decide
  have h11 : ('\x0b' : Char).toNat = 11 := by decide
  have h12 : ('\x0c' : Char).toNat = 12 := by decide
  simp only [isSpaceChar, Bool.or_eq_true, beq_iff_eq, char_eq_iff_toNat,
    h32, h9, h10, h13, h11, h12]
  tauto

theorem isSpaceChar_toUpper (c : Char) (h : isSpaceChar (Char.toLower c) = false) :
    isSpaceChar (Char.toUpper c) = false := by
  rw [Bool.eq_false_iff, Ne, isSpaceChar_iff, toUpper_toNat]
  rw [Bool.eq_false_iff, Ne, isSpaceChar_iff, toLower_toNat] at h
  by_cases hc : 97 ≤ c.toNat ∧ c.toNat ≤ 122
  · rw [if_pos hc]
    omega
  · rw [if_neg hc]
    by_cases hC : 65 ≤ c.toNat ∧ c.toNat ≤ 90
    · omega
    · rw [if_neg hC] at h
      exact h

theorem fields_space_cons (c : Char) (cs : Str) (h : isSpaceChar c = true) :
    fields (c :: cs) = fields cs := by
  rw [fields.eq_def]
  dsimp only
  rw [if_pos h]

theorem fields_single (w : Str) (hw : w ≠ [])
    (hns : ∀ c ∈ w, isSpaceChar c = false) : fields w = [w] := by
  induction w with
  | nil => exact absurd rfl hw
  | cons c w' ih =>
    rw [fields.eq_def]
    dsimp only
    rw [if_neg (by simp [hns c (by simp)])]
    cases w' with
    | nil => rfl
    | cons c2 rest =>
      dsimp only
      rw [if_neg (by simp [hns c2 (by simp)])]
      rw [ih (by simp) (fun d hd => hns d (by simp [hd]))]

theorem fields_word_append (w s : Str) (hw : w ≠ [])
    (hns : ∀ c ∈ w, isSpaceChar c = false) :
    fields (w ++ ' ' :: s) = w :: fields s := by
  induction w with
  | nil => exact absurd rfl hw
  | cons c w' ih =>
    rw [List.cons_append, fields.eq_def]
    dsimp only
    rw [if_neg (by simp [hns c (by simp)])]
    cases w' with
    | nil =>
      simp only [List.nil_append]
      rw [if_pos (by decide)]
      rw [fields_space_cons _ _ (by decide)]
    | cons c2 rest =>
      rw [List.cons_append]
      dsimp only
      rw [if_neg (by simp [hns c2 (by simp)])]
      have ih2 := ih (by simp) (fun d hd => hns d (by simp [hd]))
      rw [List.cons_append] at ih2
      rw [ih2]

theorem joinSpace_cons_cons (w w2 : Str) (rest : List Str) :
    joinSpace (w :: w2 :: rest) = w ++ ' ' :: joinSpace (w2 :: rest) := rfl

theorem fields_joinSpace (ws : List Str) (h1 : ∀ w ∈ ws, w ≠ [])
    (h2 : ∀ w ∈ ws, ∀ c ∈ w, isSpaceChar c = false) :
    fields (joinSpace ws) = ws := by
  induction ws with
  | nil => rfl
  | cons w rest ih =>
    cases rest with
    | nil => exact fields_single w (h1 w (by simp)) (h2 w (by simp))
    | cons w2 rest2 =>
      rw [joinSpace_cons_cons,
        fields_word_append w _ (h1 w (by simp)) (h2 w (by simp)),
        ih (fun v hv => h1 v (by simp [hv])) (fun v hv => h2 v (by simp [hv]))]

theorem joinSpace_ne_nil (ws : List Str) (hne : ws ≠ [])
    (h1 : ∀ w ∈ ws, w ≠ []) : joinSpace ws ≠ [] := by
  cases ws with
  | nil => exact absurd rfl hne
  | cons w rest =>
    cases rest with
    | nil => exact h1 w (by simp)
    | cons w2 rest2 =>
      rw [joinSpace_cons_cons]
      intro hc
      rcases List.append_eq_nil.mp hc with ⟨-, h⟩
      exact absurd h (by simp)

theorem dropWhile_eq_self_of_head (s : Str)
    (h : ∀ c, s.head? = some c → isSpaceChar c = false) :
    s.dropWhile isSpaceChar = s := by
  cases s with
  | nil => rfl
  | cons c cs => rw [List.dropWhile_cons, if_neg (by simp [h c rfl])]

theorem joinSpace_head?_nonspace (ws : List Str) (h1 : ∀ w ∈ ws, w ≠ [])
    (h2 : ∀ w ∈ ws, ∀ c ∈ w, isSpaceChar c = false) :
    ∀ c, (joinSpace ws).head? = some c → isSpaceChar c = false := by
  intro c hc
  cases ws with
  | nil => simp [joinSpace] at hc
  | cons w rest =>
    have hw : w ≠ [] := h1 w (by simp)
    have hhead : (joinSpace (w :: rest)).head? = w.head? := by
      cases rest with
      | nil => rfl
      | cons w2 rest2 =>
        rw [joinSpace_cons_cons, List.head?_append]
        cases hwh : w.head? with
        | none => exact absurd (List.head?_eq_none_iff.mp hwh) hw
        | some d => simp
    rw [hhead] at hc
    exact h2 w (by simp) c (List.mem_of_mem_head? hc)

theorem joinSpace_getLast?_nonspace (ws : List Str) (h1 : ∀ w ∈ ws, w ≠ [])
    (h2 : ∀ w ∈ ws, ∀ c ∈ w, isSpaceChar c = false) :
    ∀ c, (joinSpace ws).getLast? = some c → isSpaceChar c = false := by
  induction ws with
  | nil => intro c hc; simp [joinSpace] at hc
  | cons w rest ih =>
    intro c hc
    cases rest with
    | nil => exact h2 w (by simp) c (List.mem_of_mem_getLast? hc)
    | cons w2 rest2 =>
      rw [joinSpace_cons_cons, List.getLast?_append] at hc
      have hjne : joinSpace (w2 :: rest2) ≠ [] :=
        joinSpace_ne_nil _ (by simp) (fun v hv => h1 v (by simp [hv]))
      have hlast : (' ' :: joinSpace (w2 :: rest2)).getLast? =
          (joinSpace (w2 :: rest2)).getLast? := by
        cases hj : joinSpace (w2 :: rest2) with
        | nil => exact absurd hj hjne
        | cons d ds => rw [List.getLast?_cons_cons]
      rw [hlast] at hc
      cases hg : (joinSpace (w2 :: rest2)).getLast? with
      | none =>
        rw [hg] at hc
        simp only [Option.or] at hc
        exact absurd (List.getLast?_eq_none_iff.mp hg) hjne
      | some d =>
        rw [hg] at hc
        simp only [Option.or_some] at hc
        cases hc
        exact ih (fun v hv => h1 v (by simp [hv])) (fun v hv => h2 v (by simp [hv])) c hg

theorem trimSpace_joinSpace (ws : List Str) (h1 : ∀ w ∈ ws, w ≠ [])
    (h2 : ∀ w ∈ ws, ∀ c ∈ w, isSpaceChar c = false) :
    trimSpace (joinSpace ws) = joinSpace ws := by
  rw [trimSpace, dropWhile_eq_self_of_head _ (joinSpace_head?_nonspace ws h1 h2)]
  rw [dropWhile_eq_self_of_head _ (by
    intro c hc
    rw [List.head?_reverse] at hc
    exact joinSpace_getLast?_nonspace ws h1 h2 c hc)]
  rw [List.reverse_reverse]


theorem lookupAux_map_snd (w2 : Str) (i : Nat) (wl : List Str) :
    (lookupAux w2 i wl).map (fun r => r.2) = wl.find? (wordMatches w2) := by
  induction wl generalizing i with
  | nil => rfl
  | cons w rest ih =>
    rw [List.find?_cons]
    cases hw : wordMatches w2 w with
    | true => simp [lookupAux, hw]
    | false => simp [lookupAux, hw, ih]

theorem find?_unique {α : Type} (p : α → Bool) (l : List α) (e : α) (he : e ∈ l)
    (hpe : p e = true) (huniq : ∀ v ∈ l, p v = true → v = e) :
    l.find? p = some e := by
  induction l with
  | nil => simp at he
  | cons w rest ih =>
    rw [List.find?_cons]
    cases hw : p w with
    | true =>
      have : w = e := huniq w (by simp) hw
      rw [this]
    | false =>
      have hne : e ≠ w := by
        intro hc
        rw [hc, hw] at hpe
        cases hpe
      have herest : e ∈ rest := by
        rcases List.mem_cons.mp he with h | h
        · exact absurd h hne
        · exact h
      exact ih herest (fun v hv hpv => huniq v (by simp [hv]) hpv)

/-- C7 (amended): `GetWordIndex` lowercases the token *after truncating it to
its first four characters*.  A token of length ≥ 4 therefore resolves exactly
when some wordlist entry starts with the lowercased first four characters of
the token (to the first such entry), not with the whole token; a token of
length < 4 resolves only by exact match. -/
theorem getWordIndex_truncated_lookup (wl : List Str) (t : Str) :
    (4 ≤ t.length →
      (GetWordIndex wl t).map (fun r => r.2) =
        wl.find? (fun w => (strToLower (t.take 4)).isPrefixOf w)) ∧
    (t.length < 4 →
      (GetWordIndex wl t).map (fun r => r.2) =
        wl.find? (fun w => strToLower t == w)) := by
  constructor
  · intro h4
    rw [GetWordIndex, lookupAux_map_snd]
    by_cases hgt : 4 < t.length
    · rw [if_pos hgt]
      have hfun : wordMatches (strToLower (t.take 4)) =
          fun w => (strToLower (t.take 4)).isPrefixOf w := by
        funext w
        rw [wordMatches,
          if_neg (by rw [strToLower, List.length_map, List.length_take]; omega)]
      rw [hfun]
    · have heq : t.take 4 = t := List.take_of_length_le (by omega)
      rw [if_neg hgt]
      have hfun : wordMatches (strToLower t) =
          fun w => (strToLower (t.take 4)).isPrefixOf w := by
        funext w
        rw [heq, wordMatches,
          if_neg (by rw [strToLower, List.length_map]; omega)]
      rw [hfun]
  · intro hlt
    rw [GetWordIndex, if_neg (by omega), lookupAux_map_snd]
    have hfun : wordMatches (strToLower t) = fun w => strToLower t == w := by
      funext w
      rw [wordMatches, if_pos (by rw [strToLower, List.length_map]; omega)]
    rw [hfun]

/-- A token that resolves against `['h','e','d','g','e','h','o','z']`-style
inputs: `hedgehoz` shares its first four characters with `hedgehog` but is a
prefix of no entry. -/
def hedgehozT : Str := ['h', 'e', 'd', 'g', 'e', 'h', 'o', 'z']

/-- A short token for the exact-match branch. -/
def hedT : Str := ['h', 'e', 'd']

/-- C7 counterexample: the claim says a token of length ≥ 4 resolves exactly
when some entry has the whole lowercased token as a prefix.  On the wordlist
`wl0 = [hedgehog]` the token `hedgehoz` (length 8) resolves — the code
truncates it to `hedg` before matching — although no entry has `hedgehoz` as
a prefix. -/
theorem getWordIndex_whole_token_counterexample :
    4 ≤ hedgehozT.length ∧
    (GetWordIndex wl0 hedgehozT).isSome = true ∧
    (∀ w ∈ wl0, (strToLower hedgehozT).isPrefixOf w = false) := by decide

/-- C7 witness: the amended lookup rule instantiated on `wl0` for a long and
a short token. -/
theorem getWordIndex_truncated_lookup_witness :
    (4 ≤ hedgehozT.length ∧
      (GetWordIndex wl0 hedgehozT).map (fun r => r.2) =
        wl0.find? (fun w => (strToLower (hedgehozT.take 4)).isPrefixOf w)) ∧
    (hedT.length < 4 ∧
      (GetWordIndex wl0 hedT).map (fun r => r.2) =
        wl0.find? (fun w => strToLower hedT == w)) :=
  ⟨⟨by decide, (getWordIndex_truncated_lookup wl0 hedgehozT).1 (by decide)⟩,
    ⟨by decide, (getWordIndex_truncated_lookup wl0 hedT).2 (by decide)⟩⟩

theorem resolveTokens_error_shape (wl : List Str) (ws : List Str) (e : ParseErr)
    (h : ws.mapM (fun w => match GetWordIndex wl w with
        | some r => Except.ok r.2
        | Option.none => Except.error (ParseErr.unknownWord w)) =
      Except.error e) :
    ∃ w, e = ParseErr.unknownWord w := by
  induction ws generalizing e with
  | nil =>
    rw [List.mapM_nil] at h
    exact Except.noConfusion h
  | cons w rest ih =>
    rw [List.mapM_cons] at h
    cases hg : GetWordIndex wl w with
    | none =>
      rw [hg] at h
      simp only [bind, Except.bind] at h
      exact ⟨w, (Except.error.inj h).symm⟩
    | some r =>
      rw [hg] at h
      simp only [bind, Except.bind] at h
      cases hm : rest.mapM (fun w => match GetWordIndex wl w with
          | some r => Except.ok r.2
          | Option.none => Except.error (ParseErr.unknownWord w)) with
      | error e2 =>
        rw [hm] at h
        simp only [Except.bind] at h
        have he : e2 = e := Except.error.inj h
        exact he ▸ ih e2 hm
      | ok bs =>
        rw [hm] at h
        simp only [Except.bind, pure, Except.pure] at h
        exact Except.noConfusion h

/-- C8 (amended): `ParseMnemonic` performs no checksum validation at all.
Its only error kinds are `badLength` and `unknownWord`; it never returns
`badChecksum`, so in particular it accepts every 24-token input whose tokens
resolve against the wordlist, whether or not the re-expanded mnemonic
satisfies the (external, SHA-256-based) BIP-39 checksum. -/
theorem parseMnemonic_never_badChecksum (wl : List Str) (s : Str) :
    ParseMnemonic wl s ≠ Except.error ParseErr.badChecksum := by
  rw [ParseMnemonic]
  by_cases h : (fields (trimSpace s)).length ≠ MNEMONIC_WORD_COUNT
  · rw [if_pos h]
    intro hc
    exact ParseErr.noConfusion (Except.error.inj hc)
  · rw [if_neg h]
    intro hc
    obtain ⟨w, hw⟩ := resolveTokens_error_shape wl _ _ hc
    exact ParseErr.noConfusion hw

/-- C8 counterexample: a fully resolvable 24-token input (24 copies of
`hedgehog`, an input on which the external BIP-39 checksum fails — only 1 in
256 word sequences passes it) is accepted outright by `ParseMnemonic`
instead of being rejected with `BadChecksum`. -/
theorem parseMnemonic_accepts_without_checksum :
    ParseMnemonic wl0 (joinSpace mn24) = Except.ok mn24 ∧
    Except.ok mn24 ≠ Except.error ParseErr.badChecksum := by
  constructor
  · rfl
  · intro hc
    exact Except.noConfusion hc

/-- The documented properties of the external BIP-39 English wordlist that
the round-trip behaviour relies on (spec sections 3 and 4.1): entries are
nonempty canonical lowercase words without whitespace, and are pairwise
distinguished by their first four characters. -/
def goodWordList (wl : List Str) : Prop :=
  (∀ w ∈ wl, w ≠ []) ∧
  (∀ w ∈ wl, strToLower w = w) ∧
  (∀ w ∈ wl, ∀ c ∈ w, isSpaceChar c = false) ∧
  (∀ v ∈ wl, ∀ w ∈ wl, v.take 4 = w.take 4 → v = w)

theorem strToLower_strToUpper (s : Str) :
    strToLower (strToUpper s) = strToLower s := by
  rw [strToLower, strToUpper, List.map_map]
  exact List.map_congr_left (fun c _ => toLower_toUpper c)

/-- A canonical wordlist entry resolves to itself. -/
theorem getWordIndex_self (wl : List Str) (hgw : goodWordList wl) (e : Str)
    (he : e ∈ wl) :
    (GetWordIndex wl e).map (fun r => r.2) = some e := by
  obtain ⟨h1, h2, h3, h4⟩ := hgw
  rw [GetWordIndex, lookupAux_map_snd]
  by_cases hgt : 4 < e.length
  · rw [if_pos hgt]
    have hlow : strToLower (e.take 4) = e.take 4 := by
      rw [strToLower, List.map_take]
      rw [show List.map Char.toLower e = strToLower e from rfl, h2 e he]
    rw [hlow]
    apply find?_unique _ _ e he
    · rw [wordMatches, if_neg (by rw [List.length_take]; omega)]
      exact List.isPrefixOf_iff_prefix.mpr (List.take_prefix 4 e)
    · intro v hv hpv
      rw [wordMatches, if_neg (by rw [List.length_take]; omega)] at hpv
      have hpre := List.isPrefixOf_iff_prefix.mp hpv
      have htv : e.take 4 = v.take 4 := by
        have := List.prefix_iff_eq_take.mp hpre
        rw [this, List.length_take]
        congr 1
        omega
      exact h4 v hv e he htv.symm
  · rw [if_neg hgt]
    have hlow : strToLower e = e := h2 e he
    rw [hlow]
    by_cases h4len : e.length < 4
    · apply find?_unique _ _ e he
      · rw [wordMatches, if_pos h4len]
        exact beq_self_eq_true e
      · intro v hv hpv
        rw [wordMatches, if_pos h4len] at hpv
        exact (eq_of_beq hpv).symm
    · apply find?_unique _ _ e he
      · rw [wordMatches, if_neg h4len]
        exact List.isPrefixOf_iff_prefix.mpr (List.prefix_refl e)
      · intro v hv hpv
        rw [wordMatches, if_neg h4len] at hpv
        have hpre := List.isPrefixOf_iff_prefix.mp hpv
        have hlen4 : e.length = 4 := by omega
        have h44 : e.take 4 = e := List.take_of_length_le (by omega)
        have htv : e.take 4 = v.take 4 := by
          rw [h44]
          calc e = v.take e.length := List.prefix_iff_eq_take.mp hpre
            _ = v.take 4 := by rw [hlen4]
        exact h4 v hv e he htv.symm

theorem getWordIndex_mem (wl : List Str) (t e : Str)
    (h : (GetWordIndex wl t).map (fun r => r.2) = some e) : e ∈ wl := by
  rw [GetWordIndex, lookupAux_map_snd] at h
  exact List.mem_of_find?_eq_some h

/-- Looking up the uppercased 4-character short form of a token is the same
lookup as for the token itself. -/
theorem getWordIndex_short_eq (wl : List Str) (w : Str) :
    GetWordIndex wl (strToUpper (if 4 < w.length then w.take 4 else w)) =
      GetWordIndex wl w := by
  rw [GetWordIndex, GetWordIndex]
  have hlen : (strToUpper (if 4 < w.length then w.take 4 else w)).length ≤ 4 := by
    rw [strToUpper, List.length_map]
    by_cases hgt : 4 < w.length
    · rw [if_pos hgt, List.length_take]
      omega
    · rw [if_neg hgt]
      omega
  rw [if_neg (by omega)]
  rw [strToLower_strToUpper]

theorem mapM_option_eq_some {α β : Type} (f : α → Option β) (l : List α) (bs : List β) :
    l.mapM f = some bs ↔ List.Forall₂ (fun a b => f a = some b) l bs := by
  induction l generalizing bs with
  | nil =>
    rw [List.mapM_nil]
    constructor
    · intro h
      cases Option.some.inj h
      exact List.Forall₂.nil
    · intro h
      cases h
      rfl
  | cons a rest ih =>
    rw [List.mapM_cons]
    constructor
    · intro h
      cases hf : f a with
      | none =>
        rw [hf] at h
        simp only [bind, Option.bind] at h
        exact Option.noConfusion h
      | some b =>
        rw [hf] at h
        simp only [bind, Option.bind] at h
        cases hm : rest.mapM f with
        | none =>
          rw [hm] at h
          exact Option.noConfusion h
        | some bs2 =>
          rw [hm] at h
          simp only [pure] at h
          cases Option.some.inj h
          exact List.Forall₂.cons hf ((ih _).mp hm)
    · intro h
      cases h with
      | cons hf hrest =>
        rw [hf, (ih _).mpr hrest]
        rfl

theorem mapM_except_eq_ok {α β ε : Type} (f : α → Except ε β) {l : List α}
    {bs : List β} (h : List.Forall₂ (fun a b => f a = Except.ok b) l bs) :
    l.mapM f = Except.ok bs := by
  induction h with
  | nil => rfl
  | cons hf hrest ih =>
    rw [List.mapM_cons, hf, ih]
    rfl

theorem forall2_mem_right {α β : Type} {R : α → β → Prop} {l1 : List α}
    {l2 : List β} (h : List.Forall₂ R l1 l2) :
    ∀ b ∈ l2, ∃ a ∈ l1, R a b := by
  induction h with
  | nil =>
    intro b hb
    cases hb
  | cons hr hrest ih =>
    intro b hb
    cases hb with
    | head => exact ⟨_, by simp, hr⟩
    | tail _ hb2 =>
      obtain ⟨a, ha, hr2⟩ := ih b hb2
      exact ⟨a, by simp [ha], hr2⟩

theorem forall2_map_left {α β γ : Type} {R : β → γ → Prop} (g : α → β)
    {l1 : List α} {l2 : List γ}
    (h : List.Forall₂ (fun a c => R (g a) c) l1 l2) :
    List.Forall₂ R (l1.map g) l2 := by
  induction h with
  | nil => exact List.Forall₂.nil
  | cons hr hrest ih => exact List.Forall₂.cons hr ih

theorem forall2_refl_of_mem {α : Type} {R : α → α → Prop} {l : List α}
    (h : ∀ a ∈ l, R a a) : List.Forall₂ R l l := by
  induction l with
  | nil => exact List.Forall₂.nil
  | cons a rest ih =>
    exact List.Forall₂.cons (h a (by simp)) (ih (fun b hb => h b (by simp [hb])))

theorem resolve_token_ok (wl : List Str) (w e : Str)
    (h : (GetWordIndex wl w).map (fun r => r.2) = some e) :
    (match GetWordIndex wl w with
      | some r => Except.ok r.2
      | Option.none => Except.error (ParseErr.unknownWord w)) = Except.ok e := by
  cases hg : GetWordIndex wl w with
  | none =>
    rw [hg] at h
    exact Option.noConfusion h
  | some r =>
    rw [hg] at h
    simp only [Option.map] at h
    cases Option.some.inj h
    rfl

theorem resolve_key_nonspace (wl : List Str) (hgw : goodWordList wl) (w e : Str)
    (h : (GetWordIndex wl w).map (fun r => r.2) = some e) :
    w ≠ [] ∧
    ∀ c ∈ (if 4 < w.length then w.take 4 else w),
      isSpaceChar (Char.toLower c) = false := by
  obtain ⟨h1, h2, h3, h4⟩ := hgw
  rw [GetWordIndex, lookupAux_map_snd] at h
  have hfind := List.find?_some h
  have hmem := List.mem_of_find?_eq_some h
  rw [wordMatches] at hfind
  by_cases hkl : (strToLower (if 4 < w.length then w.take 4 else w)).length < 4
  · rw [if_pos hkl] at hfind
    have hke : strToLower (if 4 < w.length then w.take 4 else w) = e :=
      eq_of_beq hfind
    constructor
    · intro hw
      subst hw
      have hkey : strToLower (if 4 < ([] : Str).length then ([] : Str).take 4
          else ([] : Str)) = [] := rfl
      exact h1 e hmem (hke ▸ hkey ▸ rfl)
    · intro c hc
      have hmk : Char.toLower c ∈
          strToLower (if 4 < w.length then w.take 4 else w) := by
        rw [strToLower]
        exact List.mem_map_of_mem _ hc
      rw [hke] at hmk
      exact h3 e hmem _ hmk
  · rw [if_neg hkl] at hfind
    have hpre := List.isPrefixOf_iff_prefix.mp hfind
    constructor
    · intro hw
      subst hw
      exact hkl (by decide)
    · intro c hc
      have hmk : Char.toLower c ∈
          strToLower (if 4 < w.length then w.take 4 else w) := by
        rw [strToLower]
        exact List.mem_map_of_mem _ hc
      exact h3 e hmem _ (hpre.subset hmk)

theorem short_token_facts (wl : List Str) (hgw : goodWordList wl) (w e : Str)
    (h : (GetWordIndex wl w).map (fun r => r.2) = some e) :
    strToUpper (if 4 < w.length then w.take 4 else w) ≠ [] ∧
    ∀ c ∈ strToUpper (if 4 < w.length then w.take 4 else w),
      isSpaceChar c = false := by
  obtain ⟨hw, hns⟩ := resolve_key_nonspace wl hgw w e h
  constructor
  · rw [strToUpper]
    intro hc
    have htr : (if 4 < w.length then w.take 4 else w) = [] :=
      List.map_eq_nil.mp hc
    by_cases hgt : 4 < w.length
    · rw [if_pos hgt] at htr
      have := congrArg List.length htr
      rw [List.length_take] at this
      simp only [List.length_nil] at this
      omega
    · rw [if_neg hgt] at htr
      exact hw htr
  · intro c hc
    rw [strToUpper] at hc
    obtain ⟨c0, hc0, rfl⟩ := List.mem_map.mp hc
    exact isSpaceChar_toUpper c0 (hns c0 hc0)

/-- C9: over any wordlist with the documented properties of the BIP-39
English list (nonempty lowercase whitespace-free entries, pairwise
distinguished by their first four characters), for every 24-word mnemonic
`m` whose words all resolve: `Normalize` is idempotent, parsing the
space-joined normalized mnemonic returns it unchanged, and parsing the
space-joined `Short` form (words uppercased and truncated to four
characters) also returns the normalized mnemonic. -/
theorem mnemonic_roundtrip (wl : List Str) (hgw : goodWordList wl)
    (m n : List Str) (hlen : m.length = MNEMONIC_WORD_COUNT)
    (hn : Mnemonic.Normalize wl m = some n) :
    Mnemonic.Normalize wl n = some n ∧
    ParseMnemonic wl (joinSpace n) = Except.ok n ∧
    ParseMnemonic wl (joinSpace (Mnemonic.Short m)) = Except.ok n := by
  rw [Mnemonic.Normalize] at hn
  have hf2 := (mapM_option_eq_some _ _ _).mp hn
  have hnlen : n.length = MNEMONIC_WORD_COUNT := by
    rw [← hf2.length_eq]
    exact hlen
  have hmemwl : ∀ e ∈ n, e ∈ wl := by
    intro e he
    obtain ⟨w, hw, hr⟩ := forall2_mem_right hf2 e he
    exact getWordIndex_mem wl w e hr
  have h1n : ∀ e ∈ n, e ≠ [] := fun e he => hgw.1 e (hmemwl e he)
  have h2n : ∀ e ∈ n, ∀ c ∈ e, isSpaceChar c = false :=
    fun e he => hgw.2.2.1 e (hmemwl e he)
  refine ⟨?_, ?_, ?_⟩
  · rw [Mnemonic.Normalize]
    exact (mapM_option_eq_some _ _ _).mpr
      (forall2_refl_of_mem (fun e he => getWordIndex_self wl hgw e (hmemwl e he)))
  · have hfields : fields (trimSpace (joinSpace n)) = n := by
      rw [trimSpace_joinSpace n h1n h2n, fields_joinSpace n h1n h2n]
    rw [ParseMnemonic, hfields, if_neg (by rw [hnlen]; exact fun hne => hne rfl)]
    exact mapM_except_eq_ok _
      (forall2_refl_of_mem (fun e he =>
        resolve_token_ok wl e e (getWordIndex_self wl hgw e (hmemwl e he))))
  · have hshort : ∀ w ∈ m, ∃ e ∈ n,
        (GetWordIndex wl w).map (fun r => r.2) = some e := by
      intro w hw
      obtain ⟨e, he, hr⟩ := forall2_mem_right hf2.flip w hw
      exact ⟨e, he, hr⟩
    have h1s : ∀ t ∈ Mnemonic.Short m, t ≠ [] := by
      intro t ht
      rw [Mnemonic.Short] at ht
      obtain ⟨w, hw, rfl⟩ := List.mem_map.mp ht
      obtain ⟨e, -, hr⟩ := hshort w hw
      exact (short_token_facts wl hgw w e hr).1
    have h2s : ∀ t ∈ Mnemonic.Short m, ∀ c ∈ t, isSpaceChar c = false := by
      intro t ht
      rw [Mnemonic.Short] at ht
      obtain ⟨w, hw, rfl⟩ := List.mem_map.mp ht
      obtain ⟨e, -, hr⟩ := hshort w hw
      exact (short_token_facts wl hgw w e hr).2
    have hfieldsS : fields (trimSpace (joinSpace (Mnemonic.Short m))) =
        Mnemonic.Short m := by
      rw [trimSpace_joinSpace _ h1s h2s, fields_joinSpace _ h1s h2s]
    have hlenS : (Mnemonic.Short m).length = MNEMONIC_WORD_COUNT := by
      rw [Mnemonic.Short, List.length_map]
      exact hlen
    rw [ParseMnemonic, hfieldsS, if_neg (by rw [hlenS]; exact fun hne => hne rfl)]
    apply mapM_except_eq_ok
    rw [Mnemonic.Short]
    apply forall2_map_left
    refine List.Forall₂.imp ?_ hf2
    intro w e hre
    apply resolve_token_ok
    rw [getWordIndex_short_eq]
    exact hre

/-- Witness for C9 at a concrete wordlist and mnemonic: the singleton
wordlist and the 24-fold `hedgehog` mnemonic satisfy all hypotheses, and
the three round-trip equations hold for them. -/
theorem mnemonic_roundtrip_witness :
    goodWordList wl0 ∧ mn24.length = MNEMONIC_WORD_COUNT ∧
    Mnemonic.Normalize wl0 mn24 = some mn24 ∧
    (Mnemonic.Normalize wl0 mn24 = some mn24 ∧
     ParseMnemonic wl0 (joinSpace mn24) = Except.ok mn24 ∧
     ParseMnemonic wl0 (joinSpace (Mnemonic.Short mn24)) = Except.ok mn24) :=
  ⟨by rw [goodWordList]; decide, by decide, by rfl,
    mnemonic_roundtrip wl0 (by rw [goodWordList]; decide) mn24 mn24 (by decide)
      (by rfl)⟩
